import Mathlib

/-!
# Formal embedding of the `rag_graph` retrieval core

Shallow embedding, in Lean 4, of the algorithmic core of the `rag_graph`
repository:

* `rrf_fuse` — Reciprocal Rank Fusion (`backend/app/services/reranker.py`).
  The Python function accumulates `1.0 / (k + rank)` per hit into an
  insertion-ordered dict (`scores.setdefault(doc_id, 0.0); scores[doc_id] += ...`)
  and returns `sorted(scores.items(), key=lambda x: x[1], reverse=True)`.
  Python dicts preserve insertion order and `sorted` is stable, so the dict is
  modelled by an association list in which `addScore` updates an existing key
  in place and appends a fresh key at the end, and the sort is modelled by a
  stable descending insertion sort.

* the BM25 corpus statistics and sparse scorer
  (`backend/app/services/milvus_service.py`): `_tokenize`,
  `_update_corpus_stats` and `bm25_sparse_vector`.  Python floats are modelled
  by `ℚ`; `math.log` and Python's builtin `hash` are taken as parameters of
  the model (`lg`, `hash`) because the first is an external transcendental
  function and the second is a per-process salted hash.

* the orchestrator's method-selection logic (`backend/app/api/search.py`),
  modelled as the list of backend calls the handler issues for a request,
  together with the sub-modalities actually executed by
  `MilvusService.multi_vector_search` (`backend/app/services/milvus_service_v2.py`).

Doc ids are modelled by `ℕ` (any linearly ordered id type would do; the
claims about ordering only need a linear order).
-/

namespace RagGraph

/-! ## Reciprocal Rank Fusion — `backend/app/services/reranker.py` -/

/-- A ranked hit `(doc_id, score, source)` as produced by the search adapters. -/
abbrev Hit : Type := ℕ × ℚ × String

/-- One step of the accumulation loop body
`scores.setdefault(doc_id, 0.0); scores[doc_id] += v` on an insertion-ordered
dict: an existing key is updated in place, a fresh key is appended at the end. -/
def addScore : List (ℕ × ℚ) → ℕ → ℚ → List (ℕ × ℚ)
  | [], d, v => [(d, v)]
  | (d', v') :: rest, d, v =>
      if d' = d then (d', v' + v) :: rest else (d', v') :: addScore rest d v

/-- The inner loop `for rank, item in enumerate(rl, start=1): ... += 1.0/(k+rank)`,
with the current 1-based rank made explicit. -/
def accumFrom (k : ℕ) : List (ℕ × ℚ) → ℕ → List Hit → List (ℕ × ℚ)
  | scores, _, [] => scores
  | scores, rank, h :: rest =>
      accumFrom k (addScore scores h.1 (1 / ((k : ℚ) + (rank : ℚ)))) (rank + 1) rest

/-- The fully accumulated `scores` dict of `rrf_fuse`, as an insertion-ordered
association list. -/
def rrfScores (ranked_lists : List (List Hit)) (k : ℕ) : List (ℕ × ℚ) :=
  ranked_lists.foldl (fun sc rl => accumFrom k sc 1 rl) []

/-- Stable descending insertion: `a` is placed before the first element whose
score is not larger than `a`'s (so an element equal in score to `a` that was
already present stays behind `a` only if it came later — see `stableSortDesc`). -/
def insertDesc (a : ℕ × ℚ) : List (ℕ × ℚ) → List (ℕ × ℚ)
  | [] => [a]
  | b :: bs => if b.2 ≤ a.2 then a :: b :: bs else b :: insertDesc a bs

/-- Stable descending sort by score, modelling Python's
`sorted(items, key=lambda x: x[1], reverse=True)` (Python's sort is stable and
`reverse=True` keeps equal elements in their original relative order). -/
def stableSortDesc (l : List (ℕ × ℚ)) : List (ℕ × ℚ) := l.foldr insertDesc []

/-- `rrf_fuse(ranked_lists, k=60)` from `backend/app/services/reranker.py`:
accumulate `1/(k+rank)` per hit, then sort descending by fused score. -/
def rrf_fuse (ranked_lists : List (List Hit)) (k : ℕ := 60) : List (ℕ × ℚ) :=
  stableSortDesc (rrfScores ranked_lists k)

/-- Total score attributed to docID `e` by an association list (sum over all
entries with key `e`; when keys are distinct this is the value stored at `e`). -/
def valSum : List (ℕ × ℚ) → ℕ → ℚ
  | [], _ => 0
  | p :: rest, e => (if p.1 = e then p.2 else 0) + valSum rest e

/-- The total RRF contribution of the suffix of one ranked list to docID `e`,
when the first element of the suffix has 1-based rank `r`. -/
def rrfContrib (k : ℕ) : ℕ → List Hit → ℕ → ℚ
  | _, [], _ => 0
  | r, h :: rest, e =>
      (if h.1 = e then 1 / ((k : ℚ) + (r : ℚ)) else 0) + rrfContrib k (r + 1) rest e

theorem valSum_addScore (sc : List (ℕ × ℚ)) (d : ℕ) (v : ℚ) (e : ℕ) :
    valSum (addScore sc d v) e = valSum sc e + (if d = e then v else 0) := by
  induction sc with
  | nil => simp [addScore, valSum]
  | cons q rest ih =>
      by_cases hq : q.1 = d
      · simp only [addScore, hq, if_pos rfl, valSum]
        by_cases he : d = e
        · simp [he, hq]; ring
        · simp [valSum, he, hq]
      · simp only [addScore, hq, if_neg, valSum, ih]
        ring

theorem valSum_accumFrom (k : ℕ) (rl : List Hit) :
    ∀ (sc : List (ℕ × ℚ)) (r e : ℕ),
      valSum (accumFrom k sc r rl) e = valSum sc e + rrfContrib k r rl e := by
  induction rl with
  | nil => intro sc r e; simp [accumFrom, rrfContrib]
  | cons h rest ih =>
      intro sc r e
      simp only [accumFrom, rrfContrib, ih, valSum_addScore]
      by_cases hd : h.1 = e
      · simp [hd]; ring
      · simp [hd]

theorem valSum_rrfScores (ranked_lists : List (List Hit)) (k : ℕ) (e : ℕ) :
    valSum (rrfScores ranked_lists k) e
      = (ranked_lists.map (fun rl => rrfContrib k 1 rl e)).sum := by
  suffices h : ∀ sc, valSum (ranked_lists.foldl (fun sc rl => accumFrom k sc 1 rl) sc) e
      = valSum sc e + (ranked_lists.map (fun rl => rrfContrib k 1 rl e)).sum by
    simpa [rrfScores, valSum] using h []
  induction ranked_lists with
  | nil => intro sc; simp
  | cons rl rest ih =>
      intro sc
      simp only [List.foldl_cons, List.map_cons, List.sum_cons, ih, valSum_accumFrom]
      ring

theorem rrfContrib_of_not_mem (k : ℕ) (rl : List Hit) (e : ℕ)
    (h : e ∉ rl.map (fun x => x.1)) : ∀ r, rrfContrib k r rl e = 0 := by
  induction rl with
  | nil => intro r; simp [rrfContrib]
  | cons hd rest ih =>
      intro r
      simp only [List.map_cons, List.mem_cons] at h
      push_neg at h
      simp [rrfContrib, Ne.symm h.1, ih h.2]

/-- On a ranked list with pairwise-distinct docIDs, the RRF contribution of a
docID is `1/(k + rank)` at its 1-based rank, and `0` if it is absent. -/
theorem rrfContrib_eq_rank (k : ℕ) (rl : List Hit) (e : ℕ)
    (h : (rl.map (fun x => x.1)).Nodup) :
    ∀ r, rrfContrib k r rl e
      = if e ∈ rl.map (fun x => x.1)
        then 1 / ((k : ℚ) + (r : ℚ) + ((rl.map (fun x => x.1)).indexOf e : ℚ))
        else 0 := by
  induction rl with
  | nil => intro r; simp [rrfContrib]
  | cons hd rest ih =>
      intro r
      simp only [List.map_cons, List.nodup_cons] at h
      by_cases hde : hd.1 = e
      · have hnot : e ∉ rest.map (fun x => x.1) := hde ▸ h.1
        simp [rrfContrib, hde, rrfContrib_of_not_mem k rest e hnot,
          List.indexOf_cons_self]
      · have hne : hd.1 ≠ e := hde
        have hstep : rrfContrib k r (hd :: rest) e = rrfContrib k (r + 1) rest e := by
          simp [rrfContrib, hde]
        rw [hstep, ih h.2 (r + 1), List.map_cons]
        by_cases hmem : e ∈ rest.map (fun x => x.1)
        · rw [if_pos hmem, if_pos (List.mem_cons_of_mem _ hmem),
            List.indexOf_cons_ne _ hne, Nat.succ_eq_add_one]
          push_cast
          ring_nf
        · rw [if_neg hmem, if_neg (by simp [hmem, Ne.symm hne])]

/-- The docIDs of all hits in traversal order of the accumulation loop
(lists in their given order, each list in rank order). -/
def flatIds (ranked_lists : List (List Hit)) : List ℕ :=
  (ranked_lists.map (fun rl => rl.map (fun h => h.1))).flatten

/-- Key sequence of an insertion-ordered dict after inserting `ids` in order:
an id already present is left where it is, a fresh id is appended. -/
def keyFold (ks ids : List ℕ) : List ℕ :=
  ids.foldl (fun ks d => if d ∈ ks then ks else ks ++ [d]) ks

/-- Worker for `firstDedup`: drop the elements already in `seen`, keep the
first copy of everything else. -/
def firstDedupGo {α : Type} [DecidableEq α] (seen : List α) : List α → List α
  | [] => []
  | x :: xs => if x ∈ seen then firstDedupGo seen xs else x :: firstDedupGo (x :: seen) xs

/-- The distinct elements of a list, each kept at its first occurrence
(this is the key order of a Python dict built by repeated `setdefault`,
and the iteration order of `collections.Counter` over the tokens). -/
def firstDedup {α : Type} [DecidableEq α] (l : List α) : List α := firstDedupGo [] l

theorem firstDedupGo_congr {α : Type} [DecidableEq α] :
    ∀ (l s1 s2 : List α), (∀ a, a ∈ s1 ↔ a ∈ s2) →
      firstDedupGo s1 l = firstDedupGo s2 l := by
  intro l
  induction l with
  | nil => intro s1 s2 _; rfl
  | cons x xs ih =>
      intro s1 s2 hs
      simp only [firstDedupGo]
      by_cases hx : x ∈ s1
      · rw [if_pos hx, if_pos ((hs x).1 hx)]
        exact ih s1 s2 hs
      · rw [if_neg hx, if_neg (fun hc => hx ((hs x).2 hc))]
        refine congrArg (x :: ·) (ih _ _ ?_)
        intro a
        simp [hs a]

theorem firstDedupGo_filter {α : Type} [DecidableEq α] :
    ∀ (l seen : List α) (x : α),
      firstDedupGo (x :: seen) l
        = firstDedupGo seen (l.filter (fun y => decide (y ≠ x))) := by
  intro l
  induction l with
  | nil => intro seen x; rfl
  | cons y ys ih =>
      intro seen x
      by_cases hyx : y = x
      · subst hyx
        rw [List.filter_cons_of_neg (by simp)]
        simp only [firstDedupGo, List.mem_cons, true_or, if_pos]
        exact ih seen y
      · rw [List.filter_cons_of_pos (by simp [hyx])]
        simp only [firstDedupGo, List.mem_cons]
        by_cases hys : y ∈ seen
        · rw [if_pos (Or.inr hys), if_pos hys]
          exact ih seen x
        · rw [if_neg (by simp [hyx, hys]), if_neg hys]
          refine congrArg (y :: ·) ?_
          rw [firstDedupGo_congr ys (y :: x :: seen) (x :: y :: seen)
            (by intro a; simp; tauto)]

          exact ih (y :: seen) x

theorem firstDedup_cons {α : Type} [DecidableEq α] (x : α) (xs : List α) :
    firstDedup (x :: xs) = x :: firstDedup (xs.filter (fun y => decide (y ≠ x))) := by
  show firstDedupGo [] (x :: xs) = _
  simp only [firstDedupGo, List.not_mem_nil, if_neg]
  exact congrArg (x :: ·) (firstDedupGo_filter xs [] x)

/-- Recursion principle matching the first-occurrence structure: a list is
its head followed by the dedup of its tail with the head's copies removed. -/
theorem firstDedup_rec {α : Type} [DecidableEq α] {motive : List α → Prop}
    (nil : motive [])
    (cons : ∀ x xs, motive (xs.filter (fun y => decide (y ≠ x))) → motive (x :: xs)) :
    ∀ l, motive l := by
  have H : ∀ (n : ℕ) (l : List α), l.length ≤ n → motive l := by
    intro n
    induction n with
    | zero =>
        intro l hl
        have hnil : l = [] := List.length_eq_zero.1 (Nat.le_zero.1 hl)
        rw [hnil]
        exact nil
    | succ n ih =>
        intro l hl
        cases l with
        | nil => exact nil
        | cons x xs =>
            refine cons x xs (ih _ ?_)
            have h1 := List.length_filter_le (fun y => decide (y ≠ x)) xs
            simp only [List.length_cons] at hl
            omega
  intro l
  exact H l.length l (Nat.le_refl _)

theorem addScore_keys (sc : List (ℕ × ℚ)) (d : ℕ) (v : ℚ) :
    (addScore sc d v).map (fun p => p.1)
      = if d ∈ sc.map (fun p => p.1)
        then sc.map (fun p => p.1) else sc.map (fun p => p.1) ++ [d] := by
  induction sc with
  | nil => simp [addScore]
  | cons q rest ih =>
      obtain ⟨d', v'⟩ := q
      by_cases hd : d' = d
      · simp [addScore, hd]
      · simp only [addScore, if_neg hd, List.map_cons, ih, List.mem_cons]
        by_cases hmem : d ∈ rest.map (fun p => p.1)
        · simp [hmem, Ne.symm hd]
        · simp [hmem, Ne.symm hd]

theorem accumFrom_keys (k : ℕ) (rl : List Hit) :
    ∀ (sc : List (ℕ × ℚ)) (r : ℕ),
      (accumFrom k sc r rl).map (fun p => p.1)
        = keyFold (sc.map (fun p => p.1)) (rl.map (fun h => h.1)) := by
  induction rl with
  | nil => intro sc r; simp [accumFrom, keyFold]
  | cons h rest ih =>
      intro sc r
      simp [accumFrom, keyFold, ih, addScore_keys]

theorem rrfScores_keys (ranked_lists : List (List Hit)) (k : ℕ) :
    (rrfScores ranked_lists k).map (fun p => p.1) = keyFold [] (flatIds ranked_lists) := by
  suffices h : ∀ sc, ((ranked_lists.foldl (fun sc rl => accumFrom k sc 1 rl) sc).map
      (fun p => p.1)) = keyFold (sc.map (fun p => p.1)) (flatIds ranked_lists) by
    simpa using h []
  induction ranked_lists with
  | nil => intro sc; simp [flatIds, keyFold]
  | cons rl rest ih =>
      intro sc
      simp only [List.foldl_cons, ih, accumFrom_keys, flatIds, List.map_cons,
        List.flatten_cons, keyFold, List.foldl_append]

theorem keyFold_eq_firstDedup_filter :
    ∀ (ids ks : List ℕ), keyFold ks ids = ks ++ firstDedup (ids.filter (fun d => decide (d ∉ ks))) := by
  intro ids
  induction ids with
  | nil => intro ks; simp [keyFold, firstDedup, firstDedupGo]
  | cons x xs ih =>
      intro ks
      by_cases hx : x ∈ ks
      · have h1 : keyFold ks (x :: xs) = keyFold ks xs := by simp [keyFold, hx]
        rw [h1, ih, List.filter_cons_of_neg (by simp [hx])]
      · have h1 : keyFold ks (x :: xs) = keyFold (ks ++ [x]) xs := by simp [keyFold, hx]
        have hfc : List.filter (fun d => decide (d ∉ ks ++ [x])) xs
            = List.filter (fun a => decide (a ≠ x) && decide (a ∉ ks)) xs := by
          apply List.filter_congr
          intro a _
          by_cases h1 : a ∈ ks <;> by_cases h2 : a = x <;> simp [h1, h2]
        rw [h1, ih, List.filter_cons_of_pos (by simp [hx]), firstDedup_cons,
          List.filter_filter, List.append_assoc, List.singleton_append, hfc]

theorem keyFold_nil_eq_firstDedup (ids : List ℕ) : keyFold [] ids = firstDedup ids := by
  rw [keyFold_eq_firstDedup_filter ids []]
  simp

theorem mem_firstDedup {α : Type} [DecidableEq α] (a : α) :
    ∀ l : List α, a ∈ firstDedup l ↔ a ∈ l := by
  intro l
  induction l using firstDedup_rec with
  | nil => simp [firstDedup, firstDedupGo]
  | cons x xs ih =>
      rw [firstDedup_cons]
      by_cases hax : a = x
      · simp [hax]
      · have h2 : (a ∈ x :: firstDedup (List.filter (fun y => decide (y ≠ x)) xs)) ↔
            a ∈ List.filter (fun y => decide (y ≠ x)) xs := by
          rw [List.mem_cons, ih]
          simp [hax]
        rw [h2, List.mem_filter, List.mem_cons]
        simp [hax]

theorem nodup_firstDedup {α : Type} [DecidableEq α] :
    ∀ l : List α, (firstDedup l).Nodup := by
  intro l
  induction l using firstDedup_rec with
  | nil => simp [firstDedup, firstDedupGo]
  | cons x xs ih =>
      rw [firstDedup_cons, List.nodup_cons]
      refine ⟨fun hx => ?_, ih⟩
      have := (mem_firstDedup x _).1 hx
      simp [List.mem_filter] at this

theorem indexOf_filter_lt {α : Type} [DecidableEq α] (p : α → Bool) :
    ∀ (l : List α) (a b : α), a ∈ l.filter p → b ∈ l.filter p →
      (l.filter p).indexOf a < (l.filter p).indexOf b → l.indexOf a < l.indexOf b := by
  intro l
  induction l with
  | nil => intro a b ha; simp at ha
  | cons c t ih =>
      intro a b ha hb hlt
      by_cases hc : p c
      · rw [List.filter_cons_of_pos hc] at ha hb hlt
        by_cases hac : a = c
        · subst hac
          have hbc : b ≠ a := by
            intro h; subst h; simp at hlt
          rw [List.indexOf_cons_self, List.indexOf_cons_ne _ (fun h => hbc h.symm)]
          exact Nat.succ_pos _
        · by_cases hbc : b = c
          · subst hbc
            rw [List.indexOf_cons_self] at hlt
            exact absurd hlt (Nat.not_lt_zero _)
          · have ha' : a ∈ t.filter p := by
              rcases List.mem_cons.1 ha with h | h
              · exact absurd h hac
              · exact h
            have hb' : b ∈ t.filter p := by
              rcases List.mem_cons.1 hb with h | h
              · exact absurd h hbc
              · exact h
            rw [List.indexOf_cons_ne _ (fun h => hac h.symm),
              List.indexOf_cons_ne _ (fun h => hbc h.symm)] at hlt
            rw [List.indexOf_cons_ne _ (fun h => hac h.symm),
              List.indexOf_cons_ne _ (fun h => hbc h.symm)]
            exact Nat.succ_lt_succ (ih a b ha' hb' (Nat.lt_of_succ_lt_succ hlt))
      · rw [List.filter_cons_of_neg hc] at ha hb hlt
        have hac : a ≠ c := by
          intro h; subst h
          exact hc (List.mem_filter.1 ha).2
        have hbc : b ≠ c := by
          intro h; subst h
          exact hc (List.mem_filter.1 hb).2
        rw [List.indexOf_cons_ne _ (fun h => hac h.symm),
          List.indexOf_cons_ne _ (fun h => hbc h.symm)]
        exact Nat.succ_lt_succ (ih a b ha hb hlt)

theorem firstDedup_pairwise_indexOf {α : Type} [DecidableEq α] :
    ∀ l : List α, (firstDedup l).Pairwise (fun a b => l.indexOf a < l.indexOf b) := by
  intro l
  induction l using firstDedup_rec with
  | nil => simp [firstDedup, firstDedupGo]
  | cons x xs ih =>
      rw [firstDedup_cons, List.pairwise_cons]
      constructor
      · intro b hb
        have hb' := (mem_firstDedup b _).1 hb
        have hbx : b ≠ x := by
          have := (List.mem_filter.1 hb').2
          simpa using this
        rw [List.indexOf_cons_self, List.indexOf_cons_ne _ (fun h => hbx h.symm)]
        exact Nat.succ_pos _
      · refine ih.imp_of_mem ?_
        intro a b ha hb hlt
        have ha' := (mem_firstDedup a _).1 ha
        have hb' := (mem_firstDedup b _).1 hb
        have hax : a ≠ x := by
          have := (List.mem_filter.1 ha').2; simpa using this
        have hbx : b ≠ x := by
          have := (List.mem_filter.1 hb').2; simpa using this
        have := indexOf_filter_lt _ xs a b ha' hb' hlt
        rw [List.indexOf_cons_ne _ (fun h => hax h.symm),
          List.indexOf_cons_ne _ (fun h => hbx h.symm)]
        exact Nat.succ_lt_succ this

theorem insertDesc_perm (a : ℕ × ℚ) : ∀ l : List (ℕ × ℚ), List.Perm (insertDesc a l) (a :: l) := by
  intro l
  induction l with
  | nil => exact List.Perm.refl _
  | cons b bs ih =>
      rw [insertDesc]
      by_cases hle : b.2 ≤ a.2
      · rw [if_pos hle]
      · rw [if_neg hle]
        exact (ih.cons b).trans (List.Perm.swap a b bs)

theorem stableSortDesc_perm : ∀ l : List (ℕ × ℚ), List.Perm (stableSortDesc l) l := by
  intro l
  induction l with
  | nil => exact List.Perm.refl _
  | cons x xs ih => exact (insertDesc_perm x _).trans (ih.cons x)

/-- Inserting `x` into a list that is descending-sorted-with-ties-governed-by-`Q`
keeps that shape, provided `x` is `Q`-before every present element (`x` came
earlier in the pre-sort order than all of them). -/
theorem pairwise_insertDesc (Q : (ℕ × ℚ) → (ℕ × ℚ) → Prop) (x : ℕ × ℚ) :
    ∀ ys : List (ℕ × ℚ),
      ys.Pairwise (fun a b => b.2 < a.2 ∨ (a.2 = b.2 ∧ Q a b)) →
      (∀ b ∈ ys, Q x b) →
      (insertDesc x ys).Pairwise (fun a b => b.2 < a.2 ∨ (a.2 = b.2 ∧ Q a b)) := by
  intro ys
  induction ys with
  | nil => intro _ _; simp [insertDesc]
  | cons b bs ih =>
      intro hp hx
      rw [insertDesc]
      by_cases hle : b.2 ≤ x.2
      · rw [if_pos hle, List.pairwise_cons]
        refine ⟨?_, hp⟩
        intro c hc
        rcases List.mem_cons.1 hc with rfl | hcbs
        · rcases lt_or_eq_of_le hle with h | h
          · exact Or.inl h
          · exact Or.inr ⟨h.symm, hx c (List.mem_cons_self _ _)⟩
        · have hbc := (List.pairwise_cons.1 hp).1 c hcbs
          rcases hbc with h | h
          · exact Or.inl (lt_of_lt_of_le h hle)
          · rcases lt_or_eq_of_le hle with h2 | h2
            · exact Or.inl (h.1 ▸ h2)
            · exact Or.inr ⟨by rw [← h2]; exact h.1, hx c (List.mem_cons_of_mem _ hcbs)⟩
      · rw [if_neg hle]
        have hlt : x.2 < b.2 := lt_of_not_le hle
        rw [List.pairwise_cons]
        constructor
        · intro c hc
          rcases List.mem_cons.1 ((insertDesc_perm x bs).mem_iff.1 hc) with rfl | hcbs
          · exact Or.inl hlt
          · exact (List.pairwise_cons.1 hp).1 c hcbs
        · exact ih (List.pairwise_cons.1 hp).2 (fun c hc => hx c (List.mem_cons_of_mem _ hc))

/-- The stable descending sort of a list whose elements are pairwise related by
`Q` (in list order) is descending by score, with ties still related by `Q` in
output order: the sort is stable. -/
theorem pairwise_stableSortDesc (Q : (ℕ × ℚ) → (ℕ × ℚ) → Prop) :
    ∀ l : List (ℕ × ℚ), l.Pairwise Q →
      (stableSortDesc l).Pairwise (fun a b => b.2 < a.2 ∨ (a.2 = b.2 ∧ Q a b)) := by
  intro l
  induction l with
  | nil => intro _; simp [stableSortDesc]
  | cons x xs ih =>
      intro hQ
      refine pairwise_insertDesc Q x (stableSortDesc xs) (ih (List.pairwise_cons.1 hQ).2) ?_
      intro b hb
      exact (List.pairwise_cons.1 hQ).1 b ((stableSortDesc_perm xs).mem_iff.1 hb)

theorem valSum_of_not_mem (sc : List (ℕ × ℚ)) (e : ℕ)
    (h : e ∉ sc.map (fun p => p.1)) : valSum sc e = 0 := by
  induction sc with
  | nil => simp [valSum]
  | cons q rest ih =>
      simp only [List.map_cons, List.mem_cons] at h
      push_neg at h
      simp [valSum, Ne.symm h.1, ih h.2]

theorem valSum_eq_of_mem (sc : List (ℕ × ℚ)) (p : ℕ × ℚ)
    (hnd : (sc.map (fun q => q.1)).Nodup) (hp : p ∈ sc) : valSum sc p.1 = p.2 := by
  induction sc with
  | nil => simp at hp
  | cons q rest ih =>
      simp only [List.map_cons, List.nodup_cons] at hnd
      rcases List.mem_cons.1 hp with rfl | hrest
      · simp [valSum, valSum_of_not_mem rest p.1 hnd.1]
      · have hq : q.1 ≠ p.1 := by
          intro h
          exact hnd.1 (by rw [h]; exact List.mem_map_of_mem _ hrest)
        simp [valSum, hq, ih hnd.2 hrest]

/-- The output ordering demanded by the spec for the rank fuser: descending by
fused score with ties broken by **ascending docID**.  This definition follows
the spec's words (§4.4 and §8 of the spec), for comparison with what
`rrf_fuse` actually produces. -/
def specOrderedOutput (l : List (ℕ × ℚ)) : Prop :=
  l.Pairwise (fun a b => b.2 < a.2 ∨ (a.2 = b.2 ∧ a.1 < b.1))

/-- C1, counterexample: feed the fuser the two singleton lists `[(doc 1, …)]`
and `[(doc 0, …)]`.  Both docs get the same fused score `1/61`, but the output
lists doc `1` (first encountered) before doc `0`, so ties are *not* broken by
ascending docID.  (Python's `sorted` is stable and the accumulating dict is in
first-insertion order, so insertion order — not docID — decides ties.) -/
theorem rrf_fuse_tie_not_ascending :
    rrf_fuse [[(1, 5, "semantic")], [(0, 7, "kg")]] 60 = [(1, 1/61), (0, 1/61)]
    ∧ ¬ specOrderedOutput (rrf_fuse [[(1, 5, "semantic")], [(0, 7, "kg")]] 60) := by
  have hout : rrf_fuse [[(1, 5, "semantic")], [(0, 7, "kg")]] 60 = [(1, 1/61), (0, 1/61)] := by
    norm_num [rrf_fuse, rrfScores, accumFrom, addScore, stableSortDesc, insertDesc]
  refine ⟨hout, ?_⟩
  rw [hout]
  intro hcon
  have := (List.pairwise_cons.1 hcon).1 (0, 1/61) (by simp)
  rcases this with h | h
  · exact absurd h (by norm_num)
  · exact absurd h.2 (by norm_num)

/-- C1 (amended): the output of `rrf_fuse` is sorted in descending order of
fused score; docIDs with equal fused scores appear in the order of their first
occurrence in the traversal of the input lists (not in ascending docID order);
and — `rrf_fuse` being a pure function of its arguments — repeated calls on
the same inputs and `k` return identical output (the last conjunct is
definitional in the model). -/
theorem rrf_fuse_sorted_stable (ranked_lists : List (List Hit)) (k : ℕ) :
    (rrf_fuse ranked_lists k).Pairwise (fun a b => b.2 ≤ a.2)
    ∧ (rrf_fuse ranked_lists k).Pairwise (fun a b =>
        a.2 = b.2 →
          (flatIds ranked_lists).indexOf a.1 < (flatIds ranked_lists).indexOf b.1)
    ∧ rrf_fuse ranked_lists k = rrf_fuse ranked_lists k := by
  have hkeys : ((rrfScores ranked_lists k).map (fun p => p.1)).Pairwise
      (fun a b => (flatIds ranked_lists).indexOf a < (flatIds ranked_lists).indexOf b) := by
    rw [rrfScores_keys, keyFold_nil_eq_firstDedup]
    exact firstDedup_pairwise_indexOf _
  have hQ : (rrfScores ranked_lists k).Pairwise (fun a b =>
      (flatIds ranked_lists).indexOf a.1 < (flatIds ranked_lists).indexOf b.1) := by
    rw [List.pairwise_map] at hkeys
    exact hkeys
  have hT := pairwise_stableSortDesc _ _ hQ
  refine ⟨hT.imp (fun h => ?_), hT.imp (fun h => ?_), rfl⟩
  · rcases h with h | h
    · exact le_of_lt h
    · exact le_of_eq h.1.symm
  · intro heq
    rcases h with h | h
    · rw [heq] at h
      exact absurd h (lt_irrefl _)
    · exact h.2

/-- C10: every docID appears exactly once in the fused output, and the output
docIDs are exactly the docIDs occurring anywhere in the input lists — the
fuser deduplicates documents appearing in several lists into one entry. -/
theorem rrf_fuse_unique_docIDs (ranked_lists : List (List Hit)) (k : ℕ) :
    ((rrf_fuse ranked_lists k).map (fun p => p.1)).Nodup
    ∧ ∀ d : ℕ, d ∈ (rrf_fuse ranked_lists k).map (fun p => p.1)
        ↔ ∃ rl ∈ ranked_lists, d ∈ rl.map (fun h => h.1) := by
  have hperm : List.Perm ((rrf_fuse ranked_lists k).map (fun p => p.1))
      ((rrfScores ranked_lists k).map (fun p => p.1)) :=
    (stableSortDesc_perm _).map _
  have hkeys : (rrfScores ranked_lists k).map (fun p => p.1)
      = firstDedup (flatIds ranked_lists) := by
    rw [rrfScores_keys, keyFold_nil_eq_firstDedup]
  constructor
  · exact hperm.nodup_iff.2 (by rw [hkeys]; exact nodup_firstDedup _)
  · intro d
    rw [hperm.mem_iff, hkeys, mem_firstDedup]
    simp [flatIds]

/-- The fused score the spec's formula assigns to docID `d`: the sum over the
input lists of `1/(k + r)` where `r` is `d`'s 1-based rank in that list, a
list not containing `d` contributing `0`.  (This definition follows the
claim's words, for comparison with what `rrf_fuse` computes.) -/
def rrfClaimScore (ranked_lists : List (List Hit)) (k : ℕ) (d : ℕ) : ℚ :=
  (ranked_lists.map (fun rl =>
    if d ∈ rl.map (fun x => x.1)
    then 1 / ((k : ℚ) + (((rl.map (fun x => x.1)).indexOf d + 1 : ℕ) : ℚ))
    else 0)).sum

/-- C2: when each input list mentions each docID at most once (rank is then
well defined), every entry of the fused output carries exactly the RRF score
`Σ_lists 1/(k + rank)`; and on the spec's worked example
`fulltext = [A,B,C]`, `semantic = [B,A,D]`, `k = 60` (with `A,B,C,D` encoded
as `0,1,2,3`) the fused order is `A, B, C, D`. -/
theorem rrf_fuse_score_values (ranked_lists : List (List Hit)) (k : ℕ)
    (hnd : ∀ rl ∈ ranked_lists, (rl.map (fun x => x.1)).Nodup) :
    (∀ p ∈ rrf_fuse ranked_lists k, p.2 = rrfClaimScore ranked_lists k p.1)
    ∧ (rrf_fuse [[(0, 1, "fulltext"), (1, (9:ℚ)/10, "fulltext"), (2, (8:ℚ)/10, "fulltext")],
         [(1, 1, "semantic"), (0, (9:ℚ)/10, "semantic"), (3, (8:ℚ)/10, "semantic")]] 60).map
        (fun p => p.1) = [0, 1, 2, 3] := by
  constructor
  · intro p hp
    have hmem : p ∈ rrfScores ranked_lists k := (stableSortDesc_perm _).mem_iff.1 hp
    have hnodk : ((rrfScores ranked_lists k).map (fun q => q.1)).Nodup := by
      rw [rrfScores_keys, keyFold_nil_eq_firstDedup]
      exact nodup_firstDedup _
    have hval := valSum_eq_of_mem _ p hnodk hmem
    rw [← hval, valSum_rrfScores, rrfClaimScore]
    congr 1
    apply List.map_congr_left
    intro rl hrl
    rw [rrfContrib_eq_rank k rl p.1 (hnd rl hrl) 1]
    by_cases hm : p.1 ∈ rl.map (fun x => x.1)
    · rw [if_pos hm, if_pos hm]
      push_cast
      ring_nf
    · rw [if_neg hm, if_neg hm]
  · norm_num [rrf_fuse, rrfScores, accumFrom, addScore, stableSortDesc, insertDesc]

/-- Concrete instantiation of `rrf_fuse_score_values` (its nodup hypothesis
discharged on an explicit input). -/
theorem rrf_fuse_score_values_witness :
    (∀ rl ∈ [[((0:ℕ), (1:ℚ), "fulltext")], [((0:ℕ), (1:ℚ), "semantic"), ((3:ℕ), (1:ℚ)/2, "semantic")]],
        (rl.map (fun x : Hit => x.1)).Nodup)
    ∧ ((∀ p ∈ rrf_fuse [[(0, 1, "fulltext")], [(0, 1, "semantic"), (3, (1:ℚ)/2, "semantic")]] 60,
          p.2 = rrfClaimScore [[(0, 1, "fulltext")], [(0, 1, "semantic"), (3, (1:ℚ)/2, "semantic")]] 60 p.1)
        ∧ (rrf_fuse [[(0, 1, "fulltext"), (1, (9:ℚ)/10, "fulltext"), (2, (8:ℚ)/10, "fulltext")],
             [(1, 1, "semantic"), (0, (9:ℚ)/10, "semantic"), (3, (8:ℚ)/10, "semantic")]] 60).map
            (fun p => p.1) = [0, 1, 2, 3]) :=
  ⟨by intro rl hrl; fin_cases hrl <;> simp,
   rrf_fuse_score_values _ 60 (by intro rl hrl; fin_cases hrl <;> simp)⟩

/-! ## BM25 corpus statistics and sparse scorer —
`backend/app/services/milvus_service.py` -/

/-- A word character in the sense of the tokenizer's regex `\w`
(ASCII fragment: letters, digits, underscore). -/
def isWordChar (c : Char) : Bool := c.isAlphanum || c = '_'

/-- Split a lower-cased character stream into the maximal runs of word
characters (`re.findall(r"\w+", ...)`); `acc` holds the reversed current run. -/
def tokenRuns : List Char → List Char → List String
  | [], [] => []
  | [], acc => [String.mk acc.reverse]
  | c :: cs, acc =>
      if isWordChar c then tokenRuns cs (c :: acc)
      else if acc.isEmpty then tokenRuns cs []
      else String.mk acc.reverse :: tokenRuns cs []

/-- `MilvusService._tokenize`: `re.findall(r"\w+", text.lower())`. -/
def tokenize (text : String) : List String :=
  tokenRuns (text.toList.map Char.toLower) []

/-- The in-memory BM25 corpus statistics of `MilvusService`
(`self.doc_freq`, `self.total_docs`, `self.total_doc_len`). -/
structure CorpusStats where
  doc_freq : String → ℕ
  total_docs : ℕ
  total_doc_len : ℕ

/-- The statistics of a freshly constructed service (`__init__`). -/
def emptyStats : CorpusStats := ⟨fun _ => 0, 0, 0⟩

/-- Loop body of `_update_corpus_stats` for a single text: an empty token
sequence still counts as a document; otherwise each **distinct** term's
document frequency rises by 1, and the token count is added to the total. -/
def observeText (s : CorpusStats) (t : String) : CorpusStats :=
  let tokens := tokenize t
  if tokens.isEmpty then
    { s with total_docs := s.total_docs + 1 }
  else
    { doc_freq := fun term => if term ∈ tokens then s.doc_freq term + 1 else s.doc_freq term
      total_docs := s.total_docs + 1
      total_doc_len := s.total_doc_len + tokens.length }

/-- `MilvusService._update_corpus_stats(texts)`. -/
def update_corpus_stats (s : CorpusStats) (texts : List String) : CorpusStats :=
  texts.foldl observeText s

/-- `MilvusService.bm25_sparse_vector(text, k1=1.2, b=0.75)`.

The result models the Python `{'indices': [...], 'values': [...]}` dict as the
association list of `(index, value)` pairs in first-insertion order, `none`
modelling the `None` returns.  `lg` stands for `math.log` and `hashFn` for
`abs(hash(·))` (both external to the scored algorithm: the logarithm is
transcendental and Python's string hash is salted per process); `dim_text`
is `self.dim_text`, 384 unless `create_collection` overrode it.  `addScore`
models the collision-summing update `idx2val[idx] = idx2val.get(idx, 0.0) + score`
on the insertion-ordered dict, and `firstDedup tokens` with `tokens.count` is
`collections.Counter(tokens).items()` in its iteration order. -/
def bm25_sparse_vector (lg : ℚ → ℚ) (hashFn : String → ℕ) (s : CorpusStats)
    (text : String) (k1 : ℚ := 6/5) (b : ℚ := 3/4) (dim_text : ℕ := 384) :
    Option (List (ℕ × ℚ)) :=
  let tokens := tokenize text
  if tokens.isEmpty ∨ s.total_docs = 0 then none
  else
    let dl : ℚ := (tokens.length : ℚ)
    let avgdl : ℚ :=
      if s.total_docs > 0 then (s.total_doc_len : ℚ) / (s.total_docs : ℚ) else dl
    let idx2val := (firstDedup tokens).foldl (fun acc term =>
      let freq : ℚ := (tokens.count term : ℚ)
      let df : ℚ := (s.doc_freq term : ℚ)
      let idf : ℚ := lg (((s.total_docs : ℚ) - df + 1/2) / (df + 1/2) + 1)
      let denom : ℚ :=
        if avgdl > 0 then freq + k1 * (1 - b + b * (dl / avgdl)) else freq + k1
      addScore acc (hashFn term % dim_text) (idf * ((freq * (k1 + 1)) / denom))) []
    if idx2val.isEmpty then none else some idx2val

/-- Field-wise characterisation of `_update_corpus_stats`: every text adds one
document; each text adds its token count to the total length (an empty token
sequence adds 0); and a term's document frequency rises by the number of
observed texts containing it. -/
theorem update_corpus_stats_fields (texts : List String) :
    ∀ s : CorpusStats,
      (update_corpus_stats s texts).total_docs = s.total_docs + texts.length
      ∧ (update_corpus_stats s texts).total_doc_len
          = s.total_doc_len + (texts.map (fun t => (tokenize t).length)).sum
      ∧ ∀ term, (update_corpus_stats s texts).doc_freq term
          = s.doc_freq term + texts.countP (fun t => decide (term ∈ tokenize t)) := by
  induction texts with
  | nil => intro s; simp [update_corpus_stats]
  | cons t ts ih =>
      intro s
      have hstep : update_corpus_stats s (t :: ts) = update_corpus_stats (observeText s t) ts := rfl
      rcases ih (observeText s t) with ⟨hd, hl, hf⟩
      by_cases hemp : (tokenize t).isEmpty
      · have htok : tokenize t = [] := List.isEmpty_iff.1 hemp
        have hob : observeText s t = { s with total_docs := s.total_docs + 1 } := by
          simp [observeText, hemp]
        refine ⟨?_, ?_, ?_⟩
        · rw [hstep, hd, hob]
          simp [Nat.add_comm, Nat.add_assoc, Nat.add_left_comm]
        · rw [hstep, hl, hob]
          simp [htok]
        · intro term
          rw [hstep, hf term, hob]
          simp [List.countP_cons, htok]
      · have hob : observeText s t =
            { doc_freq := fun term =>
                if term ∈ tokenize t then s.doc_freq term + 1 else s.doc_freq term
              total_docs := s.total_docs + 1
              total_doc_len := s.total_doc_len + (tokenize t).length } := by
          simp [observeText, hemp]
        refine ⟨?_, ?_, ?_⟩
        · rw [hstep, hd, hob]
          simp [Nat.add_comm, Nat.add_assoc, Nat.add_left_comm]
        · rw [hstep, hl, hob]
          simp [Nat.add_comm, Nat.add_assoc, Nat.add_left_comm]
        · intro term
          rw [hstep, hf term, hob]
          simp only [List.countP_cons]
          by_cases hmem : term ∈ tokenize t
          · simp [hmem]
            omega
          · simp [hmem]

/-- C9: observing a batch twice, starting from the fresh statistics, yields
exactly double the `total_docs`, `total_doc_len` and every `doc_freq` entry
that observing it once yields (the structure is not idempotent); a text whose
token sequence is empty still increments `total_docs` while leaving
`total_doc_len` and `doc_freq` unchanged; and one observed text raises a
term's document frequency by exactly 1 when the text contains the term
(however many times) and by 0 otherwise. -/
theorem corpus_stats_observe_twice (texts : List String) :
    ((update_corpus_stats (update_corpus_stats emptyStats texts) texts).total_docs
        = 2 * (update_corpus_stats emptyStats texts).total_docs
      ∧ (update_corpus_stats (update_corpus_stats emptyStats texts) texts).total_doc_len
        = 2 * (update_corpus_stats emptyStats texts).total_doc_len
      ∧ ∀ term, (update_corpus_stats (update_corpus_stats emptyStats texts) texts).doc_freq term
        = 2 * (update_corpus_stats emptyStats texts).doc_freq term)
    ∧ (∀ (s : CorpusStats) (text : String), tokenize text = [] →
        (update_corpus_stats s [text]).total_docs = s.total_docs + 1
        ∧ (update_corpus_stats s [text]).total_doc_len = s.total_doc_len
        ∧ ∀ term, (update_corpus_stats s [text]).doc_freq term = s.doc_freq term)
    ∧ (∀ (s : CorpusStats) (text : String) (term : String),
        (update_corpus_stats s [text]).doc_freq term
          = s.doc_freq term + (if term ∈ tokenize text then 1 else 0)) := by
  refine ⟨?_, ?_, ?_⟩
  · rcases update_corpus_stats_fields texts emptyStats with ⟨hd1, hl1, hf1⟩
    rcases update_corpus_stats_fields texts (update_corpus_stats emptyStats texts) with
      ⟨hd2, hl2, hf2⟩
    refine ⟨?_, ?_, ?_⟩
    · rw [hd2, hd1]
      simp [emptyStats]
      omega
    · rw [hl2, hl1]
      simp [emptyStats]
      omega
    · intro term
      rw [hf2 term, hf1 term]
      simp [emptyStats]
      omega
  · intro s text htok
    rcases update_corpus_stats_fields [text] s with ⟨hd, hl, hf⟩
    refine ⟨by rw [hd]; rfl, by rw [hl]; simp [htok], ?_⟩
    intro term
    rw [hf term]
    simp [List.countP_cons, htok]
  · intro s text term
    rcases update_corpus_stats_fields [text] s with ⟨-, -, hf⟩
    rw [hf term]
    by_cases hmem : term ∈ tokenize text
    · simp [List.countP_cons, hmem]
    · simp [List.countP_cons, hmem]

/-- Concrete instantiation of `corpus_stats_observe_twice`: its inner
hypothesis (a text that tokenizes to nothing) discharged on the empty string,
whose token sequence is indeed empty. -/
theorem corpus_stats_observe_twice_witness :
    tokenize " " = []
    ∧ ((update_corpus_stats emptyStats [" "]).total_docs = emptyStats.total_docs + 1
        ∧ (update_corpus_stats emptyStats [" "]).total_doc_len = emptyStats.total_doc_len
        ∧ ∀ term, (update_corpus_stats emptyStats [" "]).doc_freq term
            = emptyStats.doc_freq term) :=
  ⟨by decide, (corpus_stats_observe_twice [" "]).2.1 emptyStats " " (by decide)⟩

/-- C6: if the corpus statistics record zero observed documents, or the input
text tokenizes to no terms, `bm25_sparse_vector` returns the empty result
(Python `None`, the spec's "dimensionless empty result") — and, being a total
function, it never throws. -/
theorem bm25_empty_corpus_or_no_tokens (lg : ℚ → ℚ) (hashFn : String → ℕ)
    (s : CorpusStats) (text : String) (k1 b : ℚ) (dim : ℕ)
    (h : s.total_docs = 0 ∨ tokenize text = []) :
    bm25_sparse_vector lg hashFn s text k1 b dim = none := by
  have hcond : (tokenize text).isEmpty ∨ s.total_docs = 0 := by
    rcases h with h | h
    · exact Or.inr h
    · exact Or.inl (by rw [h]; rfl)
  unfold bm25_sparse_vector
  rw [if_pos hcond]

/-- Concrete instantiation of `bm25_empty_corpus_or_no_tokens`: a fresh
service (zero observed documents) scoring `"hello"` returns the empty result. -/
theorem bm25_empty_corpus_or_no_tokens_witness :
    (emptyStats.total_docs = 0 ∨ tokenize "hello" = [])
    ∧ bm25_sparse_vector (fun q => q) (fun _ => 0) emptyStats "hello" = none :=
  ⟨Or.inl rfl,
   bm25_empty_corpus_or_no_tokens (fun q => q) (fun _ => 0) emptyStats "hello"
     (6/5) (3/4) 384 (Or.inl rfl)⟩

theorem addScore_ne_nil (acc : List (ℕ × ℚ)) (d : ℕ) (v : ℚ) : addScore acc d v ≠ [] := by
  cases acc with
  | nil => simp [addScore]
  | cons q rest =>
      obtain ⟨d', v'⟩ := q
      by_cases h : d' = d <;> simp [addScore, h]

theorem foldl_addScore_ne_nil (g : String → ℕ) (w : String → ℚ) :
    ∀ (ts : List String) (acc : List (ℕ × ℚ)), acc ≠ [] →
      ts.foldl (fun acc term => addScore acc (g term) (w term)) acc ≠ [] := by
  intro ts
  induction ts with
  | nil => intro acc h; simpa using h
  | cons t rest ih =>
      intro acc h
      rw [List.foldl_cons]
      exact ih _ (addScore_ne_nil _ _ _)

theorem foldl_addScore_nonempty (g : String → ℕ) (w : String → ℚ)
    (ts : List String) (hts : ts ≠ []) :
    ts.foldl (fun acc term => addScore acc (g term) (w term)) [] ≠ [] := by
  cases ts with
  | nil => exact absurd rfl hts
  | cons t rest =>
      rw [List.foldl_cons]
      exact foldl_addScore_ne_nil g w rest _ (addScore_ne_nil _ _ _)

theorem firstDedup_ne_nil {α : Type} [DecidableEq α] (l : List α) (h : l ≠ []) :
    firstDedup l ≠ [] := by
  cases l with
  | nil => exact absurd rfl h
  | cons x xs =>
      rw [firstDedup_cons]
      simp

/-- Folding collision-summing updates (`idx2val[g t] += w t`) over a term
list computes, at every index `i`, the sum of the weights of the terms whose
index is `i`. -/
theorem valSum_foldl_addScore (g : String → ℕ) (w : String → ℚ) :
    ∀ (ts : List String) (acc : List (ℕ × ℚ)) (i : ℕ),
      valSum (ts.foldl (fun acc term => addScore acc (g term) (w term)) acc) i
        = valSum acc i + ((ts.filter (fun term => decide (g term = i))).map w).sum := by
  intro ts
  induction ts with
  | nil => intro acc i; simp
  | cons t rest ih =>
      intro acc i
      rw [List.foldl_cons, ih, valSum_addScore]
      by_cases hg : g t = i
      · rw [List.filter_cons_of_pos (by simpa using hg)]
        simp [hg]
        ring
      · rw [List.filter_cons_of_neg (by simpa using hg)]
        simp [hg]

theorem exists_foldl_spec (g : String → ℕ) (w : String → ℚ) (ts : List String)
    (hts : ts ≠ []) :
    ∃ v, (if (ts.foldl (fun acc term => addScore acc (g term) (w term)) []).isEmpty
          then (none : Option (List (ℕ × ℚ)))
          else some (ts.foldl (fun acc term => addScore acc (g term) (w term)) [])) = some v
      ∧ ∀ i, valSum v i = ((ts.filter (fun term => decide (g term = i))).map w).sum := by
  have hne := foldl_addScore_nonempty g w ts hts
  refine ⟨ts.foldl (fun acc term => addScore acc (g term) (w term)) [], ?_, ?_⟩
  · rw [if_neg (by simpa [List.isEmpty_iff] using hne)]
  · intro i
    simpa [valSum] using valSum_foldl_addScore g w ts [] i

/-- C7: for a text with at least one token scored against statistics with
`total_docs > 0`, the sparse vector assigns weights per the BM25 formula: each
distinct term `t` of frequency `f` contributes
`idf(t) * f * (k1+1) / denom` at its hashed index, where
`idf(t) = lg((N - df + 0.5)/(df + 0.5) + 1)`, and
`denom = f + k1*(1 - b + b*(dl/avgdl))` when `avgdl = total_doc_len/total_docs`
is positive and `f + k1` otherwise (so the `avgdl = 0` branch performs no
division).  The first conjunct records the default parameters
`k1 = 1.2 = 6/5`, `b = 0.75 = 3/4` and width `384`. -/
theorem bm25_weight_formula (lg : ℚ → ℚ) (hashFn : String → ℕ) (s : CorpusStats)
    (text : String) (k1 b : ℚ) (dim : ℕ)
    (h1 : tokenize text ≠ []) (h2 : 0 < s.total_docs) :
    bm25_sparse_vector lg hashFn s text = bm25_sparse_vector lg hashFn s text (6/5) (3/4) 384
    ∧ ∃ v, bm25_sparse_vector lg hashFn s text k1 b dim = some v
      ∧ ∀ i : ℕ, valSum v i
        = (((firstDedup (tokenize text)).filter (fun term => decide (hashFn term % dim = i))).map
            (fun term =>
              lg (((s.total_docs : ℚ) - (s.doc_freq term : ℚ) + 1/2)
                    / ((s.doc_freq term : ℚ) + 1/2) + 1)
                * ((((tokenize text).count term : ℚ) * (k1 + 1))
                    / (if (s.total_doc_len : ℚ) / (s.total_docs : ℚ) > 0
                       then ((tokenize text).count term : ℚ)
                            + k1 * (1 - b + b * (((tokenize text).length : ℚ)
                                / ((s.total_doc_len : ℚ) / (s.total_docs : ℚ))))
                       else ((tokenize text).count term : ℚ) + k1)))).sum := by
  refine ⟨rfl, ?_⟩
  have hne : ¬((tokenize text).isEmpty ∨ s.total_docs = 0) := by
    push_neg
    refine ⟨by simpa [List.isEmpty_iff] using h1, ?_⟩
    omega
  simp only [bm25_sparse_vector]
  rw [if_neg hne, if_pos h2]
  exact exists_foldl_spec _ _ _ (firstDedup_ne_nil _ h1)

/-- Statistics of a corpus with one observed single-token document, every
term having document frequency 1 (used for concrete instantiations). -/
def statsOne : CorpusStats := ⟨fun _ => 1, 1, 1⟩

/-- Concrete instantiation of `bm25_weight_formula`: both hypotheses
discharged for the text `"a"` against `statsOne`. -/
theorem bm25_weight_formula_witness :
    (tokenize "a" ≠ [] ∧ 0 < statsOne.total_docs)
    ∧ (bm25_sparse_vector (fun q => q) (fun _ => 0) statsOne "a"
        = bm25_sparse_vector (fun q => q) (fun _ => 0) statsOne "a" (6/5) (3/4) 384
      ∧ ∃ v, bm25_sparse_vector (fun q => q) (fun _ => 0) statsOne "a" (6/5) (3/4) 384 = some v
        ∧ ∀ i : ℕ, valSum v i
          = (((firstDedup (tokenize "a")).filter (fun term => decide ((fun _ : String => 0) term % 384 = i))).map
              (fun term =>
                (((statsOne.total_docs : ℚ) - (statsOne.doc_freq term : ℚ) + 1/2)
                      / ((statsOne.doc_freq term : ℚ) + 1/2) + 1)
                  * ((((tokenize "a").count term : ℚ) * (6/5 + 1))
                      / (if (statsOne.total_doc_len : ℚ) / (statsOne.total_docs : ℚ) > 0
                         then ((tokenize "a").count term : ℚ)
                              + 6/5 * (1 - 3/4 + 3/4 * (((tokenize "a").length : ℚ)
                                  / ((statsOne.total_doc_len : ℚ) / (statsOne.total_docs : ℚ))))
                         else ((tokenize "a").count term : ℚ) + 6/5)))).sum) :=
  ⟨⟨by decide, by decide⟩,
   bm25_weight_formula (fun q => q) (fun _ => 0) statsOne "a" (6/5) (3/4) 384
     (by decide) (by decide)⟩

/-- C8 (code bug): the sparse index of a term is computed as
`abs(hash(term)) % self.dim_text` with Python's **builtin `hash`**, whose
value on strings is salted per process (`PYTHONHASHSEED`), although the
function's own docstring promises "a stable hash" and the spec demands a
stable, cross-language hash.  Modelling the two per-process hash values a
term may receive in two runs as two hash functions: the same text scored
against the same statistics yields *different* sparse vectors, so two runs of
the program do not produce identical output.  (Collision summation itself is
faithfully present — see `valSum_foldl_addScore` — only stability fails.) -/
theorem bm25_output_depends_on_hash :
    bm25_sparse_vector (fun q => q) (fun _ => 0) statsOne "a"
      ≠ bm25_sparse_vector (fun q => q) (fun _ => 1) statsOne "a" := by
  have htok : tokenize "a" = ["a"] := by decide
  intro hcon
  norm_num [bm25_sparse_vector, htok, statsOne, firstDedup, firstDedupGo, addScore] at hcon

/-! ## Orchestrator method selection — `backend/app/api/search.py` -/

/-- A call the `search` handler can issue to a backend service.
`imageBytes` carries the uploaded payload (`none` = no upload; Python also
treats `b""` as falsy, hence the list payload is kept explicit). -/
inductive BackendCall : Type
  | multiVector (query : String) (imageBytes : Option (List ℕ)) (topk : ℤ)
  | searchFulltext (query : String) (topk : ℤ)
  | searchSemantic (query : String) (topk : ℤ)
  | searchImage (imageBytes : Option (List ℕ)) (topk : ℤ)
  | kgSearch (query : String) (topk : ℤ)
  deriving DecidableEq

/-- The `topk` argument a backend call carries. -/
def callTopk : BackendCall → ℤ
  | .multiVector _ _ t => t
  | .searchFulltext _ t => t
  | .searchSemantic _ t => t
  | .searchImage _ t => t
  | .kgSearch _ t => t

/-- `methods.split(",")`: split on every comma (Python's `"".split(",")`
is `[""]`, matched by the base case). -/
def splitOnComma (s : String) : List String :=
  splitCommaRuns s.toList []
where
  splitCommaRuns : List Char → List Char → List String
    | [], acc => [String.mk acc.reverse]
    | c :: cs, acc =>
        if c = ',' then String.mk acc.reverse :: splitCommaRuns cs []
        else splitCommaRuns cs (c :: acc)

/-- `m.strip()`: remove leading and trailing whitespace. -/
def stripStr (s : String) : String :=
  String.mk (((s.toList.dropWhile Char.isWhitespace).reverse.dropWhile
    Char.isWhitespace).reverse)

/-- Parsing of the `methods` form field: `None` and `""` are falsy, so both
yield the default set of all five methods; otherwise
`{m.strip() for m in methods.split(",") if m.strip()}` — split on commas,
strip, drop empties.  The Python set is modelled as the first-occurrence
dedup, a faithful set model since the handler only tests membership and
cardinality. -/
def parseMethods : Option String → List String
  | none => ["fulltext", "semantic", "image", "kg", "fused"]
  | some s =>
      if s = "" then ["fulltext", "semantic", "image", "kg", "fused"]
      else firstDedup (((splitOnComma s).map stripStr).filter (fun m => decide (m ≠ "")))

/-- `milvus_methods = {"fulltext", "semantic", "image"} & requested`. -/
def milvusMethods (requested : List String) : List String :=
  ["fulltext", "semantic", "image"].filter (fun m => decide (m ∈ requested))

/-- The list of backend calls the `search` handler issues (in the order the
tasks are created): one combined `multi_vector_search` call when more than
one vector modality is requested — the call always receives the image
payload —, otherwise one individual call per (single) requested vector
modality, and a `kg.search_entities` call iff `kg` is requested. -/
def searchPlan (query : String) (image : Option (List ℕ)) (methods : Option String)
    (topk : ℤ) : List BackendCall :=
  let requested := parseMethods methods
  let mm := milvusMethods requested
  let vectorCalls :=
    if mm.length > 1 then [BackendCall.multiVector query image topk]
    else
      (if "fulltext" ∈ mm then [BackendCall.searchFulltext query topk] else [])
        ++ (if "semantic" ∈ mm then [BackendCall.searchSemantic query topk] else [])
        ++ (if "image" ∈ mm then [BackendCall.searchImage image topk] else [])
  let kgCalls := if "kg" ∈ requested then [BackendCall.kgSearch query topk] else []
  vectorCalls ++ kgCalls

/-- The sub-modalities `MilvusService.multi_vector_search`
(`backend/app/services/milvus_service_v2.py`) actually executes: always a
semantic and a fulltext sub-search, and an image sub-search exactly when a
truthy (non-empty) byte payload was passed — independent of which modalities
the caller requested. -/
def multiVectorModalities (imageBytes : Option (List ℕ)) : List String :=
  ["semantic"]
    ++ (match imageBytes with
        | some bs => if bs.isEmpty then [] else ["image"]
        | none => [])
    ++ ["fulltext"]

/-- The keys of the handler's response dict, in insertion order: the
requested vector modalities (in the fixed fulltext/semantic/image order),
then `kg` if requested, then `fused` if requested. -/
def responseKeys (methods : Option String) : List String :=
  let requested := parseMethods methods
  let mm := milvusMethods requested
  (["fulltext", "semantic", "image"].filter (fun m => decide (m ∈ mm)))
    ++ (if "kg" ∈ requested then ["kg"] else [])
    ++ (if "fused" ∈ requested then ["fused"] else [])

/-- C3, counterexample: for `methods=semantic,image` with no payload the
handler does issue exactly one combined call and no graph call, but the
combined call does not cover "exactly those requested sub-modalities": it
skips the requested `image` sub-search (no payload was passed) and runs the
unrequested `fulltext` one. -/
theorem search_combined_call_not_exact :
    searchPlan "q" none (some "semantic,image") 5 = [BackendCall.multiVector "q" none 5]
    ∧ "image" ∈ parseMethods (some "semantic,image")
    ∧ "image" ∉ multiVectorModalities none
    ∧ "fulltext" ∉ parseMethods (some "semantic,image")
    ∧ "fulltext" ∈ multiVectorModalities none := by decide

/-- C3 (amended): with more than one vector method requested the handler
issues exactly one combined multi-vector call (and no individual vector
calls); with exactly one it issues that modality's individual call; a graph
call is issued iff `kg` is requested; `methods=semantic,image` yields exactly
the one combined vector call and zero graph calls, and `methods=kg` exactly
one graph call and zero vector calls.  However the combined call's
sub-modalities are *not* "exactly those requested": `multi_vector_search`
always runs semantic and fulltext sub-searches and runs an image sub-search
iff a non-empty payload was supplied, independently of the requested set
(unrequested sub-results are only filtered from the response afterwards). -/
theorem search_method_selection (query : String) (image : Option (List ℕ))
    (methods : Option String) (topk : ℤ) :
    ((milvusMethods (parseMethods methods)).length > 1 →
      searchPlan query image methods topk
        = [BackendCall.multiVector query image topk]
          ++ (if "kg" ∈ parseMethods methods then [BackendCall.kgSearch query topk] else []))
    ∧ (milvusMethods (parseMethods methods) = ["fulltext"] →
      searchPlan query image methods topk
        = [BackendCall.searchFulltext query topk]
          ++ (if "kg" ∈ parseMethods methods then [BackendCall.kgSearch query topk] else []))
    ∧ (milvusMethods (parseMethods methods) = ["semantic"] →
      searchPlan query image methods topk
        = [BackendCall.searchSemantic query topk]
          ++ (if "kg" ∈ parseMethods methods then [BackendCall.kgSearch query topk] else []))
    ∧ (milvusMethods (parseMethods methods) = ["image"] →
      searchPlan query image methods topk
        = [BackendCall.searchImage image topk]
          ++ (if "kg" ∈ parseMethods methods then [BackendCall.kgSearch query topk] else []))
    ∧ (BackendCall.kgSearch query topk ∈ searchPlan query image methods topk
        ↔ "kg" ∈ parseMethods methods)
    ∧ ("semantic" ∈ multiVectorModalities image
        ∧ "fulltext" ∈ multiVectorModalities image
        ∧ ("image" ∈ multiVectorModalities image ↔ ∃ bs, image = some bs ∧ bs ≠ []))
    ∧ searchPlan query image (some "semantic,image") topk
        = [BackendCall.multiVector query image topk]
    ∧ searchPlan query image (some "kg") topk = [BackendCall.kgSearch query topk] := by
  refine ⟨?_, ?_, ?_, ?_, ?_, ?_, rfl, rfl⟩
  · intro h
    simp only [searchPlan]
    rw [if_pos h]
  · intro h
    simp [searchPlan, h]
  · intro h
    simp [searchPlan, h]
  · intro h
    simp [searchPlan, h]
  · by_cases hkg : "kg" ∈ parseMethods methods
    · simp [searchPlan, hkg]
    · simp only [searchPlan, if_neg hkg, List.append_nil, iff_false, hkg]
      split
      · simp
      · intro hc
        rcases List.mem_append.1 hc with h1 | h1
        · rcases List.mem_append.1 h1 with h2 | h2
          · split at h2 <;> simp_all
          · split at h2 <;> simp_all
        · split at h1 <;> simp_all
  · refine ⟨by simp [multiVectorModalities], by simp [multiVectorModalities], ?_⟩
    cases image with
    | none => simp [multiVectorModalities]
    | some bs =>
        by_cases hbs : bs = []
        · subst hbs
          simp [multiVectorModalities]
        · simp [multiVectorModalities, List.isEmpty_iff, hbs]

/-- Concrete instantiation of `search_method_selection`: for
`methods=fulltext,semantic,kg` (two vector methods) the hypothesis of its
first conjunct holds and the plan is one combined call plus one graph call. -/
theorem search_method_selection_witness :
    (milvusMethods (parseMethods (some "fulltext,semantic,kg"))).length > 1
    ∧ searchPlan "q" none (some "fulltext,semantic,kg") 3
        = [BackendCall.multiVector "q" none 3]
          ++ (if "kg" ∈ parseMethods (some "fulltext,semantic,kg")
              then [BackendCall.kgSearch "q" 3] else []) :=
  ⟨by decide,
   (search_method_selection "q" none (some "fulltext,semantic,kg") 3).1 (by decide)⟩

/-- C4, counterexample: `methods=fulltext,semantic` (image *not* requested)
with a 1-byte payload: the payload is forwarded to the combined multi-vector
backend call — the backend calls issued are not identical to those of the
same request without the payload, and the combined call runs an image
sub-search with it. -/
theorem image_payload_sent_to_backend :
    searchPlan "q" (some [1]) (some "fulltext,semantic") 5
      = [BackendCall.multiVector "q" (some [1]) 5]
    ∧ searchPlan "q" (some [1]) (some "fulltext,semantic") 5
        ≠ searchPlan "q" none (some "fulltext,semantic") 5
    ∧ "image" ∉ parseMethods (some "fulltext,semantic")
    ∧ "image" ∈ multiVectorModalities (some [1]) := by decide

/-- C4 (amended): when `image` is not requested and at most one vector method
is requested, the payload is indeed ignored — the backend calls are identical
with and without it.  But when more than one vector method is requested, the
payload is forwarded to the combined multi-vector call, which performs an
image sub-search with it iff it is non-empty.  (The response keys are

unaffected either way: only requested keys are returned.) -/
theorem image_payload_forwarding (query : String) (methods : Option String)
    (topk : ℤ) (bs : List ℕ)
    (h : "image" ∉ parseMethods methods) :
    ((milvusMethods (parseMethods methods)).length ≤ 1 →
      searchPlan query (some bs) methods topk = searchPlan query none methods topk)
    ∧ ((milvusMethods (parseMethods methods)).length > 1 →
      searchPlan query (some bs) methods topk
        = [BackendCall.multiVector query (some bs) topk]
          ++ (if "kg" ∈ parseMethods methods then [BackendCall.kgSearch query topk] else [])
      ∧ ("image" ∈ multiVectorModalities (some bs) ↔ bs ≠ [])) := by
  have himg : "image" ∉ milvusMethods (parseMethods methods) := by
    simp [milvusMethods, h]
  constructor
  · intro hle
    have hn : ¬ (milvusMethods (parseMethods methods)).length > 1 := by omega
    simp only [searchPlan]
    rw [if_neg hn, if_neg himg, if_neg hn, if_neg himg]
  · intro hgt
    constructor
    · simp only [searchPlan]
      rw [if_pos hgt]
    · by_cases hbs : bs = []
      · subst hbs
        simp [multiVectorModalities]
      · simp [multiVectorModalities, List.isEmpty_iff, hbs]

/-- Concrete instantiation of `image_payload_forwarding`: `image` is not in
`fulltext,semantic`, two vector methods are requested, and the payload `[1]`
is forwarded to the combined call, which runs an image sub-search. -/
theorem image_payload_forwarding_witness :
    ("image" ∉ parseMethods (some "fulltext,semantic")
      ∧ (milvusMethods (parseMethods (some "fulltext,semantic"))).length > 1)
    ∧ (searchPlan "q" (some [1]) (some "fulltext,semantic") 5
        = [BackendCall.multiVector "q" (some [1]) 5]
          ++ (if "kg" ∈ parseMethods (some "fulltext,semantic")
              then [BackendCall.kgSearch "q" 5] else [])
      ∧ ("image" ∈ multiVectorModalities (some [1]) ↔ ([1] : List ℕ) ≠ [])) :=
  ⟨⟨by decide, by decide⟩,
   (image_payload_forwarding "q" (some "fulltext,semantic") 5 [1] (by decide)).2 (by decide)⟩

/-- C5, counterexample: a request with an *empty query* and *topk = 0* (both
invalid per the spec) and `methods=fulltext,semantic` is not rejected: the
handler issues a combined backend call, forwarding the empty query and the
unclamped `topk = 0`. -/
theorem invalid_input_not_rejected :
    searchPlan "" none (some "fulltext,semantic") 0 = [BackendCall.multiVector "" none 0]
    ∧ searchPlan "" none (some "fulltext,semantic") 0 ≠ [] := by decide

/-- C5 (amended): the `search` handler performs no input validation and never
produces an InvalidInput rejection: every issued backend call carries the
caller's `topk` unmodified (even when `topk ≤ 0`), an empty query is
forwarded like any other (conjunct 4 shows the call issued for an empty
query with `topk = 0`), and unrecognized method names are silently dropped —
a request whose methods are all unrecognized yields an empty plan and an
empty response, not an error. -/
theorem search_no_input_validation (query : String) (image : Option (List ℕ))
    (methods : Option String) (topk : ℤ) :
    (∀ c ∈ searchPlan query image methods topk, callTopk c = topk)
    ∧ (∀ (q : String) (img : Option (List ℕ)) (t : ℤ),
        searchPlan q img (some "bogus, also-bogus") t = [])
    ∧ responseKeys (some "bogus, also-bogus") = []
    ∧ searchPlan "" none (some "fulltext,semantic") 0
        = [BackendCall.multiVector "" none 0] := by
  refine ⟨?_, fun q img t => rfl, rfl, by decide⟩
  intro c hc
  simp only [searchPlan, List.mem_append] at hc
  rcases hc with h | h
  · split at h
    · simp only [List.mem_singleton] at h
      subst h
      rfl
    · rcases List.mem_append.1 h with h2 | h2
      · rcases List.mem_append.1 h2 with h3 | h3
        · split at h3
          · simp only [List.mem_singleton] at h3
            subst h3
            rfl
          · simp at h3
        · split at h3
          · simp only [List.mem_singleton] at h3
            subst h3
            rfl
          · simp at h3
      · split at h2
        · simp only [List.mem_singleton] at h2
          subst h2
          rfl
        · simp at h2
  · split at h
    · simp only [List.mem_singleton] at h
      subst h
      rfl
    · simp at h

/-- Concrete instantiation of `search_no_input_validation`: the combined call
issued for the empty-query `topk = 0` request indeed carries `topk = 0`. -/
theorem search_no_input_validation_witness :
    BackendCall.multiVector "" none 0 ∈ searchPlan "" none (some "fulltext,semantic") 0
    ∧ callTopk (BackendCall.multiVector "" none 0) = 0 :=
  ⟨by decide,
   (search_no_input_validation "" none (some "fulltext,semantic") 0).1 _ (by decide)⟩

end RagGraph
